import Mathlib

/-!
# Verification of the pyledger rule-matching and transformation pipeline

Shallow embedding of `app/common/base_processor.py` (class `BaseProcessor`):
the pattern matcher (`match_rule`), the simplified-syntax rule normalizer
(`convert_pattern`, `resolve_account`, `transform_rules`), the confidence
scorer (`_calculate_confidence`, `_assess_description_clarity`), the
transaction transformer (`transform_transactions`) and the analytics
aggregator (`_generate_rule_analytics`).

Strings are modelled as Lean `String`s over their `List Char` data; the
inputs exercised by the program are ASCII, and the Python `lower`/`upper`/
`title` operations are embedded with their ASCII semantics.  Python floats
are modelled by `ℚ`: every numeric literal the scorer manipulates
(0.1/0.3/0.5/0.7/0.9 plus 0.2·clarity) is exactly representable after
`round(·, 1)`, and Python's `round` agrees with rational rounding on all
values arising here (no representation ties occur).
-/

namespace PyLedger

/-- ASCII lowercasing of one character (codes 65-90 are `A`-`Z`), embedding
Python `str.lower` on the ASCII inputs the program processes. -/
def lowerChar (c : Char) : Char :=
  if 65 ≤ c.toNat ∧ c.toNat ≤ 90 then Char.ofNat (c.toNat + 32) else c

/-- ASCII uppercasing of one character (codes 97-122 are `a`-`z`), embedding
Python `str.upper`. -/
def upperChar (c : Char) : Char :=
  if 97 ≤ c.toNat ∧ c.toNat ≤ 122 then Char.ofNat (c.toNat - 32) else c

/-- Python `s.lower()`. -/
def lowerStr (s : String) : String := ⟨s.data.map lowerChar⟩

/-- Python `s.upper()`. -/
def upperStr (s : String) : String := ⟨s.data.map upperChar⟩

/-- Full glob matching of an `fnmatch`-style pattern against a string:
`*` matches any character sequence (the translated `.*` under the `(?s:`
flag, so newlines included), `?` matches exactly one character, every other
pattern character matches itself.  This embeds the regex produced by
`fnmatch.translate(pat)` matched against the WHOLE string: `translate`
escapes all non-wildcard characters and appends `\Z`, so a complete match
of the translated regex is exactly this relation.  (Patterns containing a
well-formed `[...]` character class are outside this embedding; no pattern
in the specification or configuration uses one.) -/
def globMatch : List Char → List Char → Bool
  | [], s => s.isEmpty
  | p :: ps, s =>
      if p = '*' then s.tails.any (fun t => globMatch ps t)
      else
        match s with
        | [] => false
        | c :: cs => (p == '?' || p == c) && globMatch ps cs

/-- Python `re.search(regex, s)` for the end-anchored regex produced by
`fnmatch.translate`: the regex engine is free to start the match at any
position of `s`, but the trailing `\Z` forces the match to end at the end
of `s`.  Hence: some suffix of `s` is globbed by the pattern in full. -/
def searchMatch (p : List Char) : List Char → Bool
  | [] => globMatch p []
  | c :: s2 => globMatch p (c :: s2) || searchMatch p s2

/-- A rule record of the legacy (normalized) configuration:
`{transaction_type, debit_account, credit_account, description?}`. -/
structure Rule where
  transaction_type : String
  debit_account : String
  credit_account : String
  description : Option String := none
deriving Repr, DecidableEq

/-- The predicate `match_rule` applies to each rule of its list:
`re.search(fnmatch.translate(rule["transaction_type"].lower()),
str(description).lower()) is not None`. -/
def ruleMatches (description : String) (r : Rule) : Bool :=
  searchMatch (lowerStr r.transaction_type).data (lowerStr description).data

/-- `BaseProcessor.match_rule` (base_processor.py:363-382).  The first
argument is the transaction description (`none` models a pandas `NaN`,
which the function replaces by `""`); the result is the first rule of the
list whose translated pattern is found in the lowercased description. -/
def match_rule (transaction_type : Option String) (rules : List Rule) : Option Rule :=
  let d := transaction_type.getD ""
  rules.find? (ruleMatches d)

/-- Python `s.startswith(p)` (character-wise, as both are ASCII here). -/
def strStartsWith (s p : String) : Bool := p.data.isPrefixOf s.data

/-- Python slicing `s[n:]` (character-based). -/
def strDrop (s : String) (n : Nat) : String := ⟨s.data.drop n⟩

/-- `BaseProcessor.convert_pattern` (base_processor.py:405-424): rewrite the
simplified shorthand into a legacy wildcard pattern. -/
def convert_pattern (pattern : String) : String :=
  if strStartsWith pattern "contains " then "*" ++ strDrop pattern 9 ++ "*"
  else if strStartsWith pattern "starts with " then strDrop pattern 12 ++ "*"
  else if strStartsWith pattern "ends with " then "*" ++ strDrop pattern 10
  else if strStartsWith pattern "exactly " then strDrop pattern 8
  else pattern

/-! ## Characterization of the pattern matcher -/

theorem charOfNat_ne {n : Nat} (h1 : 97 ≤ n) (h2 : n ≤ 122) {c : Char}
    (hc : c.toNat < 97) : Char.ofNat n ≠ c := by
  intro h
  have hv : Nat.isValidChar n := Or.inl (by omega)
  have ht : (Char.ofNat n).toNat = n := by
    simp [Char.ofNat, hv]
    rfl
  rw [h] at ht
  omega

theorem lowerChar_ne_of_ne {c : Char} (h1 : c ≠ '*') (h2 : c ≠ '?') :
    lowerChar c ≠ '*' ∧ lowerChar c ≠ '?' := by
  unfold lowerChar
  split
  · rename_i h
    exact ⟨charOfNat_ne (by omega) (by omega) (by decide),
           charOfNat_ne (by omega) (by omega) (by decide)⟩
  · exact ⟨h1, h2⟩

/-- Lowercasing a wildcard-free pattern keeps it wildcard-free. -/
theorem literal_map_lower {X : List Char} (hX : ∀ c ∈ X, c ≠ '*' ∧ c ≠ '?') :
    ∀ c ∈ X.map lowerChar, c ≠ '*' ∧ c ≠ '?' := by
  intro c hc
  rw [List.mem_map] at hc
  obtain ⟨a, ha, rfl⟩ := hc
  exact lowerChar_ne_of_ne (hX a ha).1 (hX a ha).2

/-- A wildcard-free pattern glob-matches exactly itself. -/
theorem globMatch_literal {p : List Char} (hp : ∀ c ∈ p, c ≠ '*' ∧ c ≠ '?') :
    ∀ s, (globMatch p s = true ↔ p = s) := by
  induction p with
  | nil => intro s; cases s <;> simp [globMatch]
  | cons a ps ih =>
    intro s
    have ha := hp a (List.mem_cons_self a ps)
    have hps : ∀ c ∈ ps, c ≠ '*' ∧ c ≠ '?' := fun c hc => hp c (List.mem_cons_of_mem _ hc)
    cases s with
    | nil => simp [globMatch, ha.1]
    | cons c cs =>
      simp [globMatch, ha.1, ha.2, ih hps cs]

/-- A leading `*` glob-matches a string iff the rest of the pattern
glob-matches one of its suffixes. -/
theorem globMatch_star (ps : List Char) (s : List Char) :
    globMatch ('*' :: ps) s = true ↔ ∃ t, t <:+ s ∧ globMatch ps t = true := by
  simp [globMatch, List.any_eq_true, List.mem_tails]

/-- A wildcard-free pattern followed by `*` glob-matches exactly the strings
it prefixes. -/
theorem globMatch_literal_star {p : List Char} (hp : ∀ c ∈ p, c ≠ '*' ∧ c ≠ '?') :
    ∀ s, (globMatch (p ++ ['*']) s = true ↔ p <+: s) := by
  induction p with
  | nil =>
    intro s
    simp only [List.nil_append]
    rw [globMatch_star]
    simp only [globMatch, List.isEmpty_iff]
    constructor
    · intro _; exact List.nil_prefix
    · intro _; exact ⟨[], List.nil_suffix, rfl⟩
  | cons a ps ih =>
    intro s
    have ha := hp a (List.mem_cons_self a ps)
    have hps : ∀ c ∈ ps, c ≠ '*' ∧ c ≠ '?' := fun c hc => hp c (List.mem_cons_of_mem _ hc)
    cases s with
    | nil => simp [globMatch, ha.1]
    | cons c cs =>
      simp [globMatch, ha.1, ha.2, ih hps cs, List.cons_prefix_cons]

/-- `re.search` of an end-anchored pattern: some suffix matches in full. -/
theorem searchMatch_iff (p : List Char) :
    ∀ s, (searchMatch p s = true ↔ ∃ t, t <:+ s ∧ globMatch p t = true) := by
  intro s
  induction s with
  | nil =>
    simp [searchMatch, List.suffix_nil]
  | cons c cs ih =>
    simp only [searchMatch, Bool.or_eq_true, ih]
    constructor
    · rintro (h | ⟨t, ht, hg⟩)
      · exact ⟨c :: cs, List.suffix_refl _, h⟩
      · exact ⟨t, ht.trans (List.suffix_cons c cs), hg⟩
    · rintro ⟨t, ht, hg⟩
      rcases List.suffix_cons_iff.mp ht with rfl | ht'
      · exact Or.inl hg
      · exact Or.inr ⟨t, ht', hg⟩

/-- Search of a wildcard-free pattern succeeds exactly on suffix occurrence. -/
theorem searchMatch_literal {p : List Char} (hp : ∀ c ∈ p, c ≠ '*' ∧ c ≠ '?')
    (s : List Char) : searchMatch p s = true ↔ p <:+ s := by
  rw [searchMatch_iff]
  constructor
  · rintro ⟨t, ht, hg⟩
    rw [globMatch_literal hp] at hg
    exact hg ▸ ht
  · intro h
    exact ⟨p, h, (globMatch_literal hp p).mpr rfl⟩

/-- Search of `*X` (X wildcard-free) succeeds exactly on suffix occurrence. -/
theorem searchMatch_star_literal {p : List Char} (hp : ∀ c ∈ p, c ≠ '*' ∧ c ≠ '?')
    (s : List Char) : searchMatch ('*' :: p) s = true ↔ p <:+ s := by
  rw [searchMatch_iff]
  constructor
  · rintro ⟨t, ht, hg⟩
    rw [globMatch_star] at hg
    obtain ⟨u, hu, hgu⟩ := hg
    rw [globMatch_literal hp] at hgu
    exact (hgu ▸ hu).trans ht
  · intro h
    exact ⟨s, List.suffix_refl s, (globMatch_star p s).mpr
      ⟨p, h, (globMatch_literal hp p).mpr rfl⟩⟩

/-- Search of `X*` (X wildcard-free) succeeds exactly on substring occurrence:
the trailing `.*` absorbs the rest, the free search start absorbs the front. -/
theorem searchMatch_literal_star {p : List Char} (hp : ∀ c ∈ p, c ≠ '*' ∧ c ≠ '?')
    (s : List Char) : searchMatch (p ++ ['*']) s = true ↔ p <:+: s := by
  rw [searchMatch_iff, List.infix_iff_prefix_suffix]
  constructor
  · rintro ⟨t, ht, hg⟩
    exact ⟨t, (globMatch_literal_star hp t).mp hg, ht⟩
  · rintro ⟨t, hpt, hts⟩
    exact ⟨t, hts, (globMatch_literal_star hp t).mpr hpt⟩

/-- Search of `*X*` (X wildcard-free) succeeds exactly on substring occurrence. -/
theorem searchMatch_star_literal_star {p : List Char}
    (hp : ∀ c ∈ p, c ≠ '*' ∧ c ≠ '?') (s : List Char) :
    searchMatch ('*' :: (p ++ ['*'])) s = true ↔ p <:+: s := by
  rw [searchMatch_iff]
  rw [List.infix_iff_prefix_suffix]
  constructor
  · rintro ⟨t, ht, hg⟩
    rw [globMatch_star] at hg
    obtain ⟨u, hu, hgu⟩ := hg
    exact ⟨u, (globMatch_literal_star hp u).mp hgu, hu.trans ht⟩
  · rintro ⟨w, hpw, hws⟩
    exact ⟨s, List.suffix_refl s, (globMatch_star _ s).mpr
      ⟨w, hws, (globMatch_literal_star hp w).mpr hpw⟩⟩

theorem lowerChar_star : lowerChar '*' = '*' := rfl

theorem lowerStr_data (s : String) : (lowerStr s).data = s.data.map lowerChar := rfl

theorem match_rule_singleton (d : String) (r : Rule) :
    match_rule (some d) [r] = some r ↔ ruleMatches d r = true := by
  cases h : ruleMatches d r <;> simp [match_rule, List.find?, h]

/-- `List.find?` returns the first element satisfying the predicate. -/
theorem find_first_aux (d : String) : ∀ (rules : List Rule) (r : Rule),
    rules.find? (ruleMatches d) = some r →
    ruleMatches d r = true ∧ ∃ i, ∃ hi : i < rules.length, rules.get ⟨i, hi⟩ = r ∧
      ∀ j, ∀ hj : j < rules.length, j < i → ruleMatches d (rules.get ⟨j, hj⟩) = false
  | [], r, h => by simp [List.find?] at h
  | a :: l, r, h => by
    cases ha : ruleMatches d a with
    | true =>
      rw [List.find?_cons_of_pos _ ha] at h
      obtain rfl : a = r := Option.some.inj h
      exact ⟨ha, 0, by simp, rfl, fun j hj hji => absurd hji (by omega)⟩
    | false =>
      rw [List.find?_cons_of_neg _ (by simp [ha])] at h
      obtain ⟨hr, i, hi, hget, hbefore⟩ := find_first_aux d l r h
      refine ⟨hr, i + 1, by simpa using Nat.succ_lt_succ hi, hget, ?_⟩
      intro j hj hji
      cases j with
      | zero => simpa using ha
      | succ k =>
        have hk : k < l.length := by simp at hj; omega
        simpa using hbefore k hk (by omega)

/-! ## Claims C1, C2, C5 -/

/-- Rule used in the C1 counterexample: pattern `"Salary"`, no wildcard. -/
def c1Rule : Rule :=
  { transaction_type := "Salary"
    debit_account := "Assets:Bank:Checking"
    credit_account := "Income:Salary" }

/-- **C1** is refuted as stated: the pattern `"Salary"` occurs as a
case-insensitive substring of the description `"Salary payment"`, yet
`match_rule` does not match — `fnmatch.translate` end-anchors the regex with
`\Z`, so `re.search` only finds occurrences ending at the end of the
description. -/
theorem c1_counterexample :
    (lowerStr c1Rule.transaction_type).data <:+: (lowerStr "Salary payment").data ∧
    match_rule (some "Salary payment") [c1Rule] = none := by
  constructor
  · exact ⟨[], " payment".data, by decide⟩
  · decide

/-- **C1** (amended): for every rule whose pattern contains no wildcard
(`*` or `?`) and every description, `match_rule` matches the rule iff the
lowercased pattern occurs as a suffix of the lowercased description (a
substring ending at the end): the glob-translated pattern is end-anchored by
`fnmatch.translate`'s `\Z`, and `re.search` leaves only the start free. -/
theorem c1_wildcard_free_matches_iff_suffix (d : String) (r : Rule)
    (hp : ∀ c ∈ r.transaction_type.data, c ≠ '*' ∧ c ≠ '?') :
    match_rule (some d) [r] = some r ↔
      (lowerStr r.transaction_type).data <:+ (lowerStr d).data := by
  rw [match_rule_singleton]
  unfold ruleMatches
  rw [lowerStr_data r.transaction_type,
    searchMatch_literal (literal_map_lower hp), lowerStr_data]

theorem c1_wildcard_free_witness :
    match_rule (some "ACME Salary") [c1Rule] = some c1Rule :=
  (c1_wildcard_free_matches_iff_suffix "ACME Salary" c1Rule (by decide)).mpr
    (⟨"acme ".data, by decide⟩)

/-- A rule with a given pattern (accounts are irrelevant to matching). -/
def mkRule (pat : String) : Rule :=
  { transaction_type := pat, debit_account := "", credit_account := "" }

theorem convert_contains (X : String) :
    convert_pattern ("contains " ++ X) = "*" ++ X ++ "*" := by
  have hc : strStartsWith ("contains " ++ X) "contains " = true := by
    simp [strStartsWith, List.isPrefixOf_iff_prefix, String.data_append]
  simp only [convert_pattern, hc, if_true]
  rfl

theorem convert_starts_with (X : String) :
    convert_pattern ("starts with " ++ X) = X ++ "*" := by
  have h1 : strStartsWith ("starts with " ++ X) "contains " = false := rfl
  have h2 : strStartsWith ("starts with " ++ X) "starts with " = true := by
    simp [strStartsWith, List.isPrefixOf_iff_prefix, String.data_append]
  simp only [convert_pattern, h1, h2, if_true, Bool.false_eq_true, if_false]
  rfl

theorem convert_ends_with (X : String) :
    convert_pattern ("ends with " ++ X) = "*" ++ X := by
  have h1 : strStartsWith ("ends with " ++ X) "contains " = false := rfl
  have h2 : strStartsWith ("ends with " ++ X) "starts with " = false := rfl
  have h3 : strStartsWith ("ends with " ++ X) "ends with " = true := by
    simp [strStartsWith, List.isPrefixOf_iff_prefix, String.data_append]
  simp only [convert_pattern, h1, h2, h3, if_true, Bool.false_eq_true, if_false]
  rfl

theorem convert_exactly (X : String) :
    convert_pattern ("exactly " ++ X) = X := by
  have h1 : strStartsWith ("exactly " ++ X) "contains " = false := rfl
  have h2 : strStartsWith ("exactly " ++ X) "starts with " = false := rfl
  have h3 : strStartsWith ("exactly " ++ X) "ends with " = false := rfl
  have h4 : strStartsWith ("exactly " ++ X) "exactly " = true := by
    simp [strStartsWith, List.isPrefixOf_iff_prefix, String.data_append]
  simp only [convert_pattern, h1, h2, h3, h4, if_true, Bool.false_eq_true, if_false]
  rfl

/-- Rule used in the C2 counterexample: shorthand `"starts with salary"`,
converted pattern `"salary*"`. -/
def c2Rule : Rule := mkRule (convert_pattern "starts with salary")

/-- **C2** is refuted as stated: from the shorthand `"starts with salary"`
(pattern `"salary*"`), `match_rule` matches the description `"my salary"`
although the case-insensitive prefix test fails ("my salary" does not start
with "salary"): `re.search` may start the match anywhere, so the trailing
`*` pattern degenerates to a substring test. -/
theorem c2_counterexample :
    c2Rule.transaction_type = "salary*" ∧
    match_rule (some "my salary") [c2Rule] = some c2Rule ∧
    ¬ (lowerStr "salary").data <+: (lowerStr "my salary").data := by
  refine ⟨by decide, by decide, by decide⟩

/-- **C2** (amended): for every wildcard-free `X` and every description,
the four shorthands convert to the patterns `"*X*"` / `"X*"` / `"*X"` / `"X"`,
and `match_rule` then matches exactly under a case-insensitive substring /
substring / suffix / suffix test respectively — `"contains"` and `"ends
with"` behave as the claim states, but `"starts with X"` matches on any
substring occurrence (not only prefixes) and `"exactly X"` matches on any
suffix occurrence (not only exact equality), because the translated regex
is end-anchored but `re.search` leaves the start free. -/
theorem c2_shorthand_pattern_semantics (X d : String)
    (hX : ∀ c ∈ X.data, c ≠ '*' ∧ c ≠ '?') :
    (convert_pattern ("contains " ++ X) = "*" ++ X ++ "*" ∧
      (match_rule (some d) [mkRule ("*" ++ X ++ "*")] = some (mkRule ("*" ++ X ++ "*")) ↔
        (lowerStr X).data <:+: (lowerStr d).data)) ∧
    (convert_pattern ("starts with " ++ X) = X ++ "*" ∧
      (match_rule (some d) [mkRule (X ++ "*")] = some (mkRule (X ++ "*")) ↔
        (lowerStr X).data <:+: (lowerStr d).data)) ∧
    (convert_pattern ("ends with " ++ X) = "*" ++ X ∧
      (match_rule (some d) [mkRule ("*" ++ X)] = some (mkRule ("*" ++ X)) ↔
        (lowerStr X).data <:+ (lowerStr d).data)) ∧
    (convert_pattern ("exactly " ++ X) = X ∧
      (match_rule (some d) [mkRule X] = some (mkRule X) ↔
        (lowerStr X).data <:+ (lowerStr d).data)) := by
  have hXl := literal_map_lower hX
  refine ⟨⟨convert_contains X, ?_⟩, ⟨convert_starts_with X, ?_⟩,
    ⟨convert_ends_with X, ?_⟩, ⟨convert_exactly X, ?_⟩⟩ <;>
    rw [match_rule_singleton] <;> unfold ruleMatches mkRule <;>
    simp only [lowerStr_data, String.data_append, List.map_append, List.map_cons,
      List.map_nil, lowerChar_star]
  · exact searchMatch_star_literal_star hXl (lowerStr d).data
  · exact searchMatch_literal_star hXl (lowerStr d).data
  · exact searchMatch_star_literal hXl (lowerStr d).data
  · exact searchMatch_literal hXl (lowerStr d).data

theorem c2_shorthand_witness :
    match_rule (some "weekly salary bonus") [mkRule ("*" ++ "salary" ++ "*")] =
      some (mkRule ("*" ++ "salary" ++ "*")) :=
  ((c2_shorthand_pattern_semantics "salary" "weekly salary bonus" (by decide)).1.2).mpr
    ⟨"weekly ".data, " bonus".data, by decide⟩

/-- **C5**: `match_rule` returns the first (earliest in configured order)
matching rule, and `none` exactly when no rule matches. -/
theorem c5_first_match_wins (d : String) (rules : List Rule) :
    (match_rule (some d) rules = none ↔ ∀ r ∈ rules, ruleMatches d r = false) ∧
    (∀ r, match_rule (some d) rules = some r →
      ruleMatches d r = true ∧ ∃ i, ∃ hi : i < rules.length, rules.get ⟨i, hi⟩ = r ∧
        ∀ j, ∀ hj : j < rules.length, j < i →
          ruleMatches d (rules.get ⟨j, hj⟩) = false) ∧
    ((∃ r ∈ rules, ruleMatches d r = true) → (match_rule (some d) rules).isSome = true) := by
  refine ⟨?_, ?_, ?_⟩
  · simp [match_rule, List.find?_eq_none]
  · intro r h
    exact find_first_aux d rules r h
  · rintro ⟨r, hr, hm⟩
    cases h : match_rule (some d) rules with
    | some _ => rfl
    | none =>
      have : ruleMatches d r = false := by
        have h1 : ∀ x ∈ rules, ruleMatches d x = false := by
          revert h
          simp [match_rule, List.find?_eq_none]
        exact h1 r hr
      rw [hm] at this
      cases this

theorem c5_witness :
    match_rule (some "UNKNOWN TXN") [c1Rule, c2Rule] = none :=
  (c5_first_match_wins "UNKNOWN TXN" [c1Rule, c2Rule]).1.mpr (by decide)

/-! ## Confidence scorer (C3) -/

/-- The whitespace characters Python `str.split()` and `str.strip()` split
on (space, tab, newline, carriage return, vertical tab, form feed). -/
def isPyWhitespace (c : Char) : Bool :=
  c == ' ' || c == '\t' || c == '\n' || c == '\r' || c == '\x0b' || c == '\x0c'

/-- Python `description.split()`: split on whitespace runs, no empty words. -/
def pyWords (s : String) : List (List Char) :=
  (s.data.splitOnP isPyWhitespace).filter (fun w => !w.isEmpty)

/-- Python substring containment `needle in hay` (scan every start). -/
def containsSub (hay needle : List Char) : Bool :=
  needle.isPrefixOf hay ||
    match hay with
    | [] => false
    | _ :: t => containsSub t needle

theorem containsSub_iff (needle : List Char) :
    ∀ hay, containsSub hay needle = true ↔ needle <:+: hay := by
  intro hay
  induction hay with
  | nil =>
    simp [containsSub, List.isPrefixOf_iff_prefix]
  | cons c t ih =>
    simp only [containsSub, Bool.or_eq_true, List.isPrefixOf_iff_prefix, ih]
    constructor
    · rintro (h | h)
      · obtain ⟨u, hu⟩ := h
        exact ⟨[], u, by simp [hu]⟩
      · exact List.infix_cons h
    · intro h
      rcases (List.infix_cons_iff).mp h with h' | h'
      · exact Or.inl h'
      · exact Or.inr h'

/-- `base_processor.py:346`: the business vocabulary. -/
def business_terms : List String :=
  ["SALARY", "GROCERY", "RENT", "PAYMENT", "STORE", "PURCHASE"]

/-- `base_processor.py:350`: the cryptic vocabulary. -/
def cryptic_patterns : List String := ["POS", "TXN", "REF", "CODE"]

/-- Average word length of the description, as computed at
`base_processor.py:354` (`0` when there are no words). -/
def avg_word_length (d : String) : ℚ :=
  if (pyWords d).length = 0 then 0
  else (((pyWords d).map List.length).sum : ℚ) / ((pyWords d).length : ℚ)

/-- `BaseProcessor._assess_description_clarity` (base_processor.py:337-361). -/
def assess_description_clarity (description : String) : ℚ :=
  if description.data.all isPyWhitespace then 0
  else
    let desc_upper := upperStr description
    let has_business_context := business_terms.any (fun t => containsSub desc_upper.data t.data)
    let has_cryptic_patterns := cryptic_patterns.any (fun t => containsSub desc_upper.data t.data)
    if has_business_context && decide (avg_word_length description ≥ 4) then 1
    else if has_cryptic_patterns || decide (avg_word_length description ≤ 3) then 0
    else 1/2

/-- Floor of a rational: the numerator divided by the (positive)
denominator.  Agrees with `Int.floor` on nonnegative arguments (the only
ones the scorer produces); kept executable so witnesses can evaluate. -/
def floorQ (q : ℚ) : ℤ := q.num / q.den

/-- Rounding to one decimal, embedding Python `round(x, 1)`.  (Python rounds
ties to even; no value computed by the scorer is a tie, and every value is
exactly representable, so rounding half up agrees.) -/
def round1 (q : ℚ) : ℚ := (floorQ (q * 10 + 1/2) : ℚ) / 10

/-- `BaseProcessor._calculate_confidence` (base_processor.py:297-334). -/
def calculate_confidence (rule : Option Rule) (description : String) : ℚ × String :=
  match rule with
  | none => (1/10, "none")
  | some r =>
    let is_wildcard := r.transaction_type.data.contains '*'
    let rule_type := if is_wildcard then "wildcard" else "specific"
    let clarity_score := assess_description_clarity description
    let confidence : ℚ :=
      if is_wildcard then 3/10 + clarity_score * (2/10)
      else 7/10 + clarity_score * (2/10)
    (round1 confidence, rule_type)

/-- The description mentions one of the six business vocabulary terms
(case-insensitively, via uppercasing). -/
def hasBusinessTerm (d : String) : Prop :=
  ∃ t ∈ business_terms, t.data <:+: (upperStr d).data

/-- The description mentions one of the four cryptic vocabulary terms. -/
def hasCrypticTerm (d : String) : Prop :=
  ∃ t ∈ cryptic_patterns, t.data <:+: (upperStr d).data

theorem hasBusiness_iff (d : String) :
    business_terms.any (fun t => containsSub (upperStr d).data t.data) = true ↔
      hasBusinessTerm d := by
  simp [List.any_eq_true, containsSub_iff, hasBusinessTerm]

theorem hasCryptic_iff (d : String) :
    cryptic_patterns.any (fun t => containsSub (upperStr d).data t.data) = true ↔
      hasCrypticTerm d := by
  simp [List.any_eq_true, containsSub_iff, hasCrypticTerm]

theorem pyWords_blank : ∀ {l : List Char}, l.all isPyWhitespace = true →
    (l.splitOnP isPyWhitespace).filter (fun w => !w.isEmpty) = [] := by
  intro l
  induction l with
  | nil => intro _; simp [List.splitOnP_nil]
  | cons c cs ih =>
    intro h
    simp only [List.all_cons, Bool.and_eq_true] at h
    rw [List.splitOnP_cons, if_pos h.1, List.filter_cons]
    simp [ih h.2]

theorem avg_word_length_blank {d : String} (h : d.data.all isPyWhitespace = true) :
    avg_word_length d = 0 := by
  have : pyWords d = [] := pyWords_blank h
  simp [avg_word_length, this]

theorem clarity_mem (d : String) : assess_description_clarity d = 0 ∨
    assess_description_clarity d = 1/2 ∨ assess_description_clarity d = 1 := by
  simp only [assess_description_clarity]
  split_ifs <;> norm_num

/-- The clarity heuristic follows the ordered chain of
`_assess_description_clarity`. -/
theorem clarity_cases (d : String) :
    (hasBusinessTerm d ∧ avg_word_length d ≥ 4 → assess_description_clarity d = 1) ∧
    (¬(hasBusinessTerm d ∧ avg_word_length d ≥ 4) →
      (hasCrypticTerm d ∨ avg_word_length d ≤ 3 ∨ d.data.all isPyWhitespace = true) →
      assess_description_clarity d = 0) ∧
    (¬(hasBusinessTerm d ∧ avg_word_length d ≥ 4) →
      ¬(hasCrypticTerm d ∨ avg_word_length d ≤ 3 ∨ d.data.all isPyWhitespace = true) →
      assess_description_clarity d = 1/2) := by
  by_cases hb : d.data.all isPyWhitespace = true
  · refine ⟨?_, ?_, ?_⟩
    · rintro ⟨_, havg⟩
      rw [avg_word_length_blank hb] at havg
      norm_num at havg
    · intro _ _
      simp [assess_description_clarity, hb]
    · intro _ hno
      exact absurd (Or.inr (Or.inr hb)) hno
  · simp only [assess_description_clarity, if_neg hb]
    refine ⟨?_, ?_, ?_⟩
    · rintro ⟨hB, havg⟩
      rw [if_pos]
      rw [Bool.and_eq_true, (hasBusiness_iff d), decide_eq_true_iff]
      exact ⟨hB, havg⟩
    · intro hnot hor
      rw [if_neg, if_pos]
      · rcases hor with h | h | h
        · rw [Bool.or_eq_true, (hasCryptic_iff d), decide_eq_true_iff]
          exact Or.inl h
        · rw [Bool.or_eq_true, (hasCryptic_iff d), decide_eq_true_iff]
          exact Or.inr h
        · exact absurd h hb
      · rw [Bool.and_eq_true, (hasBusiness_iff d), decide_eq_true_iff]
        exact hnot
    · intro hnot hnor
      rw [if_neg, if_neg]
      · rw [Bool.or_eq_true, (hasCryptic_iff d), decide_eq_true_iff]
        intro h
        exact hnor (h.imp id Or.inl)
      · rw [Bool.and_eq_true, (hasBusiness_iff d), decide_eq_true_iff]
        exact hnot

theorem calculate_confidence_wildcard {r : Rule} (d : String)
    (hw : r.transaction_type.data.contains '*' = true) :
    calculate_confidence (some r) d =
      (round1 (3/10 + assess_description_clarity d * (2/10)), "wildcard") := by
  have hm : '*' ∈ r.transaction_type.data := by simpa using hw
  simp [calculate_confidence, hw, hm]

theorem calculate_confidence_specific {r : Rule} (d : String)
    (hw : r.transaction_type.data.contains '*' = false) :
    calculate_confidence (some r) d =
      (round1 (7/10 + assess_description_clarity d * (2/10)), "specific") := by
  have hm : '*' ∉ r.transaction_type.data := by simpa using hw
  simp [calculate_confidence, hw, hm]

/-- **C3**: unmatched transactions score `(0.1, none)`; a matched wildcard
rule scores `round1(0.3 + clarity*0.2) ∈ {0.3, 0.4, 0.5}`; a matched
specific rule scores `round1(0.7 + clarity*0.2) ∈ {0.7, 0.8, 0.9}`; and the
clarity score is 1.0 / 0.0 / 0.5 following the ordered business-term,
cryptic-term and average-word-length tests of the source. -/
theorem c3_confidence_scoring (ro : Option Rule) (d : String) :
    (ro = none → calculate_confidence ro d = (1/10, "none")) ∧
    (∀ r, ro = some r → '*' ∈ r.transaction_type.data →
      (calculate_confidence ro d).2 = "wildcard" ∧
      (calculate_confidence ro d).1 = round1 (3/10 + assess_description_clarity d * (2/10)) ∧
      ((calculate_confidence ro d).1 = 3/10 ∨ (calculate_confidence ro d).1 = 2/5 ∨
        (calculate_confidence ro d).1 = 1/2)) ∧
    (∀ r, ro = some r → '*' ∉ r.transaction_type.data →
      (calculate_confidence ro d).2 = "specific" ∧
      (calculate_confidence ro d).1 = round1 (7/10 + assess_description_clarity d * (2/10)) ∧
      ((calculate_confidence ro d).1 = 7/10 ∨ (calculate_confidence ro d).1 = 4/5 ∨
        (calculate_confidence ro d).1 = 9/10)) ∧
    (assess_description_clarity d = 0 ∨ assess_description_clarity d = 1/2 ∨
      assess_description_clarity d = 1) ∧
    (hasBusinessTerm d ∧ avg_word_length d ≥ 4 → assess_description_clarity d = 1) ∧
    (¬(hasBusinessTerm d ∧ avg_word_length d ≥ 4) →
      (hasCrypticTerm d ∨ avg_word_length d ≤ 3 ∨ d.data.all isPyWhitespace = true) →
      assess_description_clarity d = 0) ∧
    (¬(hasBusinessTerm d ∧ avg_word_length d ≥ 4) →
      ¬(hasCrypticTerm d ∨ avg_word_length d ≤ 3 ∨ d.data.all isPyWhitespace = true) →
      assess_description_clarity d = 1/2) := by
  obtain ⟨hc1, hc2, hc3⟩ := clarity_cases d
  refine ⟨?_, ?_, ?_, clarity_mem d, hc1, hc2, hc3⟩
  · rintro rfl; rfl
  · rintro r rfl hw
    have hw' : r.transaction_type.data.contains '*' = true := by
      simpa using hw
    rw [calculate_confidence_wildcard d hw']
    refine ⟨rfl, rfl, ?_⟩
    rcases clarity_mem d with h | h | h
    · rw [h]; exact Or.inl (by with_unfolding_all rfl)
    · rw [h]; exact Or.inr (Or.inl (by with_unfolding_all rfl))
    · rw [h]; exact Or.inr (Or.inr (by with_unfolding_all rfl))
  · rintro r rfl hw
    have hw' : r.transaction_type.data.contains '*' = false := by
      simpa using hw
    rw [calculate_confidence_specific d hw']
    refine ⟨rfl, rfl, ?_⟩
    rcases clarity_mem d with h | h | h
    · rw [h]; exact Or.inl (by with_unfolding_all rfl)
    · rw [h]; exact Or.inr (Or.inl (by with_unfolding_all rfl))
    · rw [h]; exact Or.inr (Or.inr (by with_unfolding_all rfl))

theorem c3_witness :
    calculate_confidence none "POS TXN 123" = (1/10, "none") :=
  (c3_confidence_scoring none "POS TXN 123").1 rfl

/-! ## Transaction transformer and analytics aggregator -/

/-- An input row as `transform_transactions` reads it from the DataFrame:
the configured date, description and amount columns.  `none` for the
description models a pandas `NaN`; date and amount are the raw cell texts. -/
structure Row where
  date : String
  description : Option String
  amount : String
deriving Repr, DecidableEq

/-- The rule configuration consumed by the transformer: the two ordered rule
lists `rules["rules"]["income"]` / `["expense"]` and the output amount
prefix `rules.get("output",{}).get("amount",{}).get("prefix","$")`. -/
structure Rules where
  income : List Rule
  expense : List Rule
  amount_prefix : String := "$"
deriving Repr, DecidableEq

/-- The external collaborators of the loop body: `dateutil.parser.parse`
(`none` models the parse exception), Python `float()` on the comma-stripped
amount (`none` models `ValueError`), and the f-string rendering of a float.
The transformer is proved correct for every such triple. -/
structure Ext where
  parseDate : String → Option (Nat × Nat × Nat)
  parseFloat : String → Option ℚ
  reprFloat : ℚ → String

def pad2 (n : Nat) : String := if n < 10 then "0" ++ toString n else toString n

def pad4 (n : Nat) : String :=
  if n < 10 then "000" ++ toString n
  else if n < 100 then "00" ++ toString n
  else if n < 1000 then "0" ++ toString n
  else toString n

/-- `date.strftime("%Y/%m/%d")` on a parsed (year, month, day). -/
def strftimeYMD (d : Nat × Nat × Nat) : String :=
  pad4 d.1 ++ "/" ++ pad2 d.2.1 ++ "/" ++ pad2 d.2.2

/-- `amount_str.replace(",", "")`. -/
def stripCommas (s : String) : String := ⟨s.data.filter (fun c => c != ',')⟩

/-- Python format spec `:<50`: left-justify, pad on the right with spaces up
to the field width. -/
def ljust (s : String) (w : Nat) : String :=
  s ++ ⟨List.replicate (w - s.data.length) ' '⟩

/-- Membership in the character class `[a-zA-Z0-9 ]` of the output cleanup
regex at base_processor.py:219. -/
def isAllowedChar (c : Char) : Bool :=
  decide (65 ≤ c.toNat ∧ c.toNat ≤ 90) || decide (97 ≤ c.toNat ∧ c.toNat ≤ 122) ||
    decide (48 ≤ c.toNat ∧ c.toNat ≤ 57) || c == ' '

/-- `re.sub(r"[^a-zA-Z0-9 ]+", " ", s)`: each maximal run of characters
outside the class becomes ONE space (the flag tracks being inside a run). -/
def subBadAux : Bool → List Char → List Char
  | _, [] => []
  | prevBad, c :: cs =>
    if isAllowedChar c then c :: subBadAux false cs
    else if prevBad then subBadAux true cs
    else ' ' :: subBadAux true cs

def pySubBadRuns (s : String) : String := ⟨subBadAux false s.data⟩

def isAsciiAlpha (c : Char) : Bool :=
  decide (65 ≤ c.toNat ∧ c.toNat ≤ 90) || decide (97 ≤ c.toNat ∧ c.toNat ≤ 122)

/-- Python `str.title()` restricted to ASCII input (the cleanup regex leaves
only `[a-zA-Z0-9 ]`): a letter not preceded by a letter is uppercased, a
letter preceded by a letter is lowercased. -/
def titleAux : Bool → List Char → List Char
  | _, [] => []
  | prevAlpha, c :: cs =>
    if isAsciiAlpha c then
      (if prevAlpha then lowerChar c else upperChar c) :: titleAux true cs
    else c :: titleAux false cs

def pyTitle (s : String) : String := ⟨titleAux false s.data⟩

/-- `.replace("\n", " ")` (a no-op after the cleanup regex, kept faithfully). -/
def replaceNewlines (s : String) : String :=
  ⟨s.data.map (fun c => if c = (Char.ofNat 10) then ' ' else c)⟩

/-- One record of the per-transaction metadata list. -/
structure TxMeta where
  description : String
  amount : ℚ
  date : String
  confidence_score : ℚ
  matched_rule_type : String
  rule_matched : Bool
  matched_rule_key : Option String
deriving Repr, DecidableEq

structure ConfDist where
  high : Nat
  medium : Nat
  low : Nat
deriving Repr, DecidableEq

structure Summary where
  total_transactions : Nat
  rule_usage : List (String × Nat)
  confidence_distribution : ConfDist
deriving Repr, DecidableEq

structure Effectiveness where
  avg_confidence : ℚ
  usage_count : Nat
deriving Repr, DecidableEq

/-- `coverage_analysis` of `_generate_rule_analytics`.
`transactions_without_rules` is Python integer subtraction, hence `ℤ`. -/
structure Coverage where
  total_rules_defined : Nat
  rules_used : Nat
  rules_unused : Nat
  usage_percentage : ℚ
  total_transactions : Nat
  transactions_with_rules : Nat
  transactions_without_rules : ℤ
deriving Repr, DecidableEq

structure Insights where
  removable_rules : List String
  high_performing_rules : List String
  low_performing_rules : List String
deriving Repr, DecidableEq

structure Analytics where
  rule_usage : List (String × Nat)
  unused_rules : List String
  rule_effectiveness : List (String × Effectiveness)
  coverage_analysis : Coverage
  insights : Insights
deriving Repr, DecidableEq

structure Metadata where
  transactions : List TxMeta
  summary : Summary
  rule_analytics : Analytics
deriving Repr, DecidableEq

/-- Python dict update `d[k] = d.get(k, 0) + 1` on an insertion-ordered
association list: bump the existing binding or append a new one. -/
def dictIncr : List (String × Nat) → String → List (String × Nat)
  | [], k => [(k, 1)]
  | (k0, v) :: rest, k =>
    if k0 = k then (k0, v + 1) :: rest else (k0, v) :: dictIncr rest k

/-- Python `round(x, 2)`. -/
def round2 (q : ℚ) : ℚ := (floorQ (q * 100 + 1/2) : ℚ) / 100

/-- The rule keys `"{direction}.{transaction_type}"` of the whole catalog
(`all_rules` at base_processor.py:248-250). -/
def ruleKeys (rules : Rules) : List String :=
  rules.income.map (fun r => "income." ++ r.transaction_type) ++
    rules.expense.map (fun r => "expense." ++ r.transaction_type)

/-- `rule_metrics[key] = {sum += q, count += 1}` on an insertion-ordered
association list. -/
def metricsAdd : List (String × ℚ × Nat) → String → ℚ → List (String × ℚ × Nat)
  | [], k, q => [(k, q, 1)]
  | (k0, s, c) :: rest, k, q =>
    if k0 = k then (k0, s + q, c + 1) :: rest else (k0, s, c) :: metricsAdd rest k q

/-- The single pass over `transaction_metadata` of
`_generate_rule_analytics` (base_processor.py:256-265): count transactions
with a matched rule and accumulate per-rule confidence sums and counts
(`if rule_key and rule_key != "no_match"`). -/
def analyticsPass (txs : List TxMeta) : Nat × List (String × ℚ × Nat) :=
  txs.foldl (fun acc tx =>
    let n := if tx.rule_matched then acc.1 + 1 else acc.1
    let m := match tx.matched_rule_key with
      | some k => if k ≠ "" ∧ k ≠ "no_match" then metricsAdd acc.2 k tx.confidence_score else acc.2
      | none => acc.2
    (n, m)) (0, [])

/-- `BaseProcessor._generate_rule_analytics` (base_processor.py:245-296). -/
def generate_rule_analytics (rules : Rules) (rule_usage : List (String × Nat))
    (transaction_metadata : List TxMeta) : Analytics :=
  let all_rules := ruleKeys rules
  let pass := analyticsPass transaction_metadata
  let rule_effectiveness := pass.2.map (fun kv =>
    (kv.1, { avg_confidence := round1 (kv.2.1 / (kv.2.2 : ℚ)),
             usage_count := kv.2.2 : Effectiveness }))
  let used_rules := ((rule_usage.map Prod.fst).filter (fun k => k != "no_match")).dedup
  let unused_rules := all_rules.filter (fun r => !(used_rules.contains r))
  let total_rules := all_rules.length
  { rule_usage := rule_usage
    unused_rules := unused_rules
    rule_effectiveness := rule_effectiveness
    coverage_analysis :=
      { total_rules_defined := total_rules
        rules_used := used_rules.length
        rules_unused := unused_rules.length
        usage_percentage :=
          if 0 < total_rules then round2 ((used_rules.length : ℚ) / (total_rules : ℚ) * 100)
          else 0
        total_transactions := transaction_metadata.length
        transactions_with_rules := pass.1
        transactions_without_rules :=
          (transaction_metadata.length : ℤ) - (pass.1 : ℤ) }
    insights :=
      { removable_rules := unused_rules
        high_performing_rules :=
          (rule_effectiveness.filter (fun kv => decide (kv.2.avg_confidence ≥ 8/10))).map Prod.fst
        low_performing_rules :=
          (rule_effectiveness.filter (fun kv => decide (kv.2.avg_confidence < 5/10))).map Prod.fst } }

/-- The mutable loop state of `transform_transactions`: the output lines,
the metadata records, the rule-usage dict and the confidence distribution. -/
structure LoopState where
  output : List String
  txmeta : List TxMeta
  rule_usage : List (String × Nat)
  dist : ConfDist
deriving Repr, DecidableEq

def initState : LoopState := ⟨[], [], [], ⟨0, 0, 0⟩⟩

/-- One iteration of the row loop of `transform_transactions`
(base_processor.py:164-225).  A date or amount that fails to parse raises —
modelled by `Except.error`, which `runRows` propagates, aborting the batch. -/
def stepTx (E : Ext) (rules : Rules) (capture_metadata : Bool) (st : LoopState)
    (row : Row) : Except String LoopState :=
  match E.parseDate row.date with
  | none => .error ("could not parse date: " ++ row.date)
  | some dt =>
    let formatted_date := strftimeYMD dt
    let description := row.description.getD ""
    match E.parseFloat (stripCommas row.amount) with
    | none => .error ("could not parse amount: " ++ row.amount)
    | some amount =>
      let applicable_rules := if 0 < amount then rules.income else rules.expense
      let amount_abs := |amount|
      let rule := match_rule (some description) applicable_rules
      let conf := calculate_confidence rule description
      let rule_key := match rule with
        | some r => (if 0 < amount then "income" else "expense") ++ "." ++ r.transaction_type
        | none => "no_match"
      let st1 := if capture_metadata then
          { st with
            txmeta := st.txmeta ++ [{
              description := description
              amount := amount
              date := formatted_date
              confidence_score := conf.1
              matched_rule_type := conf.2
              rule_matched := rule.isSome
              matched_rule_key := if rule.isSome then some rule_key else none }]
            rule_usage := dictIncr st.rule_usage rule_key
            dist :=
              if conf.1 ≥ 9/10 then { st.dist with high := st.dist.high + 1 }
              else if conf.1 ≥ 5/10 then { st.dist with medium := st.dist.medium + 1 }
              else { st.dist with low := st.dist.low + 1 } }
        else st
      match rule with
      | none => .ok st1
      | some r =>
        let desc_for_output := r.description.getD description
        let output_description := replaceNewlines (pyTitle (pySubBadRuns desc_for_output))
        .ok { st1 with output := st1.output ++ [
          formatted_date ++ " " ++ output_description ++ "
	" ++
            ljust r.debit_account 50 ++ rules.amount_prefix ++ E.reprFloat amount_abs ++
            "
	" ++ r.credit_account] }

def runRows (E : Ext) (rules : Rules) (capture_metadata : Bool) :
    LoopState → List Row → Except String LoopState
  | st, [] => .ok st
  | st, row :: rest =>
    match stepTx E rules capture_metadata st row with
    | .error e => .error e
    | .ok st2 => runRows E rules capture_metadata st2 rest

/-- The two return shapes of `transform_transactions`: a bare list of output
lines (`capture_metadata=False`) or a `(output, metadata)` pair. -/
inductive TransformResult where
  | outputOnly (lines : List String)
  | withMeta (lines : List String) (metadata : Metadata)
deriving Repr, DecidableEq

/-- `BaseProcessor.transform_transactions` (base_processor.py:140-243). -/
def transform_transactions (E : Ext) (transactions : List Row) (rules : Rules)
    (capture_metadata : Bool) : Except String TransformResult :=
  match runRows E rules capture_metadata initState transactions with
  | .error e => .error e
  | .ok st =>
    if capture_metadata then
      .ok (.withMeta st.output
        { transactions := st.txmeta
          summary :=
            { total_transactions := st.txmeta.length
              rule_usage := st.rule_usage
              confidence_distribution := st.dist }
          rule_analytics := generate_rule_analytics rules st.rule_usage st.txmeta })
    else .ok (.outputOnly st.output)

/-! ## Claims C6 and C9 -/

/-- Parserless external collaborators (never consulted on an empty batch). -/
def extEmpty : Ext :=
  { parseDate := fun _ => none, parseFloat := fun _ => none, reprFloat := fun _ => "" }

/-- An empty rule configuration. -/
def rulesEmpty : Rules := { income := [], expense := [], amount_prefix := "$" }

/-- **C6**: with `capture_metadata=False` the transformer returns only the
output-line list, with `True` it returns an `(output, metadata)` pair, and
the two shapes are distinguishable by the caller. -/
theorem c6_return_shapes (E : Ext) (rows : List Row) (rules : Rules) :
    (∀ res, transform_transactions E rows rules false = .ok res →
      ∃ lines, res = .outputOnly lines) ∧
    (∀ res, transform_transactions E rows rules true = .ok res →
      ∃ lines md, res = .withMeta lines md) ∧
    (∀ (lines lines2 : List String) (md : Metadata),
      TransformResult.outputOnly lines ≠ TransformResult.withMeta lines2 md) := by
  refine ⟨?_, ?_, fun _ _ _ h => TransformResult.noConfusion h⟩
  · intro res h
    unfold transform_transactions at h
    cases hr : runRows E rules false initState rows with
    | error e =>
      rw [hr] at h
      exact absurd h (by simp)
    | ok st =>
      rw [hr] at h
      exact ⟨st.output, (Except.ok.inj h).symm⟩
  · intro res h
    unfold transform_transactions at h
    cases hr : runRows E rules true initState rows with
    | error e => rw [hr] at h; cases h
    | ok st =>
      rw [hr] at h
      simp only [if_true] at h
      exact ⟨st.output, _, (Except.ok.inj h).symm⟩

theorem c6_witness :
    ∃ lines, TransformResult.outputOnly ([] : List String) =
      TransformResult.outputOnly lines :=
  (c6_return_shapes extEmpty [] rulesEmpty).1 (TransformResult.outputOnly []) rfl

/-- The error message raised for the first unparseable row (the date is
attempted first, as in the source). -/
def parseErrorMsg (E : Ext) (row : Row) : String :=
  if E.parseDate row.date = none then "could not parse date: " ++ row.date
  else "could not parse amount: " ++ row.amount

theorem stepTx_ok_of_parses {E : Ext} {rules : Rules} {cap : Bool} {st : LoopState}
    {row : Row} (hd : E.parseDate row.date ≠ none)
    (hf : E.parseFloat (stripCommas row.amount) ≠ none) :
    ∃ st2, stepTx E rules cap st row = .ok st2 := by
  obtain ⟨dt, hdt⟩ := Option.ne_none_iff_exists.mp hd
  obtain ⟨q, hq⟩ := Option.ne_none_iff_exists.mp hf
  unfold stepTx
  rw [← hdt, ← hq]
  simp only
  cases match_rule (some (row.description.getD "")) (if 0 < q then rules.income else rules.expense) with
  | none => exact ⟨_, rfl⟩
  | some r => exact ⟨_, rfl⟩

theorem stepTx_error_of_bad {E : Ext} {rules : Rules} {cap : Bool} {st : LoopState}
    {row : Row}
    (hbad : E.parseDate row.date = none ∨ E.parseFloat (stripCommas row.amount) = none) :
    stepTx E rules cap st row = .error (parseErrorMsg E row) := by
  unfold stepTx parseErrorMsg
  cases hd : E.parseDate row.date with
  | none => simp
  | some dt =>
    rcases hbad with h | h
    · rw [hd] at h; cases h
    · rw [h]
      simp [hd]

theorem runRows_error_of_bad {E : Ext} {rules : Rules} {cap : Bool} {bad : Row}
    (hbad : E.parseDate bad.date = none ∨ E.parseFloat (stripCommas bad.amount) = none) :
    ∀ (pre : List Row), (∀ r ∈ pre, E.parseDate r.date ≠ none ∧
      E.parseFloat (stripCommas r.amount) ≠ none) →
    ∀ (st : LoopState) (post : List Row),
      runRows E rules cap st (pre ++ bad :: post) = .error (parseErrorMsg E bad) := by
  intro pre
  induction pre with
  | nil =>
    intro _ st post
    simp only [List.nil_append, runRows, stepTx_error_of_bad hbad]
  | cons r pre ih =>
    intro hpre st post
    have hr := hpre r (List.mem_cons_self r pre)
    obtain ⟨st2, hst2⟩ := @stepTx_ok_of_parses E rules cap st r hr.1 hr.2
    simp only [List.cons_append, runRows, hst2]
    exact ih (fun x hx => hpre x (List.mem_cons_of_mem r hx)) st2 post

/-- **C9**: a batch containing a row whose date or amount cannot be parsed
raises (the whole batch aborts): the transformer returns an error, no output
list, and the rows after the bad one are never processed — the result does
not depend on them. -/
theorem c9_parse_failure_aborts (E : Ext) (pre post : List Row) (bad : Row)
    (rules : Rules) (cap : Bool)
    (hpre : ∀ r ∈ pre, E.parseDate r.date ≠ none ∧
      E.parseFloat (stripCommas r.amount) ≠ none)
    (hbad : E.parseDate bad.date = none ∨ E.parseFloat (stripCommas bad.amount) = none) :
    transform_transactions E (pre ++ bad :: post) rules cap =
      .error (parseErrorMsg E bad) ∧
    ∀ post2, transform_transactions E (pre ++ bad :: post) rules cap =
      transform_transactions E (pre ++ bad :: post2) rules cap := by
  have hmain : ∀ (post3 : List Row), transform_transactions E (pre ++ bad :: post3) rules cap =
      .error (parseErrorMsg E bad) := by
    intro post3
    unfold transform_transactions
    rw [runRows_error_of_bad hbad pre hpre initState post3]
  exact ⟨hmain post, fun post2 => (hmain post).trans (hmain post2).symm⟩

theorem c9_witness :
    transform_transactions extEmpty [⟨"2024-13-45", some "x", "n/a"⟩] rulesEmpty false =
      .error (parseErrorMsg extEmpty ⟨"2024-13-45", some "x", "n/a"⟩) :=
  (c9_parse_failure_aborts extEmpty [] [] ⟨"2024-13-45", some "x", "n/a"⟩ rulesEmpty false
    (by simp) (Or.inl rfl)).1

/-! ## Claim C8: the emitted ledger block -/

/-- The ledger block of one matched transaction, phrased from §6 of the
specification (with the one amendment the code forces: each maximal RUN of
characters outside `[A-Za-z0-9 ]` becomes a single space, rather than each
character becoming its own space): the date line `YYYY/MM/DD <description>`,
then a newline, a tab, the debit account left-justified in 50 columns, the
amount prefix and `abs(amount)`, then a newline, a tab and the credit
account.  The description is the rule's override if present, else the
original, cleaned, title-cased, newlines collapsed.  `none` for an
unmatched, hence silently dropped, transaction. -/
def specLedgerBlock (E : Ext) (rules : Rules) (row : Row) : Option String :=
  match E.parseDate row.date, E.parseFloat (stripCommas row.amount) with
  | some dt, some amount =>
    match match_rule (some (row.description.getD ""))
        (if 0 < amount then rules.income else rules.expense) with
    | some r =>
      some (strftimeYMD dt ++ " " ++
        replaceNewlines (pyTitle (pySubBadRuns (r.description.getD (row.description.getD "")))) ++
        "\n\t" ++ ljust r.debit_account 50 ++ rules.amount_prefix ++
        E.reprFloat |amount| ++ "\n\t" ++ r.credit_account)
    | none => none
  | _, _ => none

theorem stepTx_ok_output {E : Ext} {rules : Rules} {cap : Bool} {st : LoopState}
    {row : Row} {st1 : LoopState} (h : stepTx E rules cap st row = .ok st1) :
    st1.output = st.output ++ (specLedgerBlock E rules row).toList := by
  unfold stepTx at h
  cases hd : E.parseDate row.date with
  | none => rw [hd] at h; cases h
  | some dt =>
    rw [hd] at h
    cases hf : E.parseFloat (stripCommas row.amount) with
    | none => rw [hf] at h; cases h
    | some amount =>
      rw [hf] at h
      simp only at h
      cases hm : match_rule (some (row.description.getD ""))
          (if 0 < amount then rules.income else rules.expense) with
      | none =>
        rw [hm] at h
        obtain rfl := (Except.ok.inj h).symm
        simp only [specLedgerBlock, hd, hf, hm, Option.toList_none, List.append_nil]
        cases cap <;> simp
      | some r =>
        rw [hm] at h
        obtain rfl := (Except.ok.inj h).symm
        simp only [specLedgerBlock, hd, hf, hm, Option.toList_some]
        cases cap <;> simp

theorem runRows_output {E : Ext} {rules : Rules} {cap : Bool} :
    ∀ (rows : List Row) (st st2 : LoopState),
      runRows E rules cap st rows = .ok st2 →
      st2.output = st.output ++ rows.filterMap (specLedgerBlock E rules) := by
  intro rows
  induction rows with
  | nil =>
    intro st st2 h
    obtain rfl := (Except.ok.inj h).symm
    simp
  | cons row rest ih =>
    intro st st2 h
    unfold runRows at h
    cases hs : stepTx E rules cap st row with
    | error e => rw [hs] at h; cases h
    | ok stm =>
      rw [hs] at h
      rw [ih stm st2 h, stepTx_ok_output hs]
      cases hb : specLedgerBlock E rules row <;>
        simp [List.filterMap_cons, hb, List.append_assoc]

/-- **C8** (amended): a successful run emits, in order, exactly one block per
matched transaction, each block being the §6 layout — the only amendment to
the claim is the cleanup of the description: each maximal run of characters
outside `[A-Za-z0-9 ]` is replaced by a single space (the regex is
`[^a-zA-Z0-9 ]+`), not every character by its own space. -/
theorem c8_ledger_block_format (E : Ext) (rows : List Row) (rules : Rules)
    (lines : List String)
    (h : transform_transactions E rows rules false = .ok (.outputOnly lines)) :
    lines = rows.filterMap (specLedgerBlock E rules) := by
  unfold transform_transactions at h
  cases hr : runRows E rules false initState rows with
  | error e => rw [hr] at h; cases h
  | ok st =>
    rw [hr] at h
    have h2 : TransformResult.outputOnly st.output = TransformResult.outputOnly lines :=
      Except.ok.inj h
    have h3 : st.output = lines := by
      cases h2
      rfl
    rw [← h3, runRows_output rows initState st hr]
    rfl

/-- Parsers used in the C8 scenario: one recognized date, one amount. -/
def extC8 : Ext :=
  { parseDate := fun s => if s = "2024-01-01" then some (2024, 1, 1) else none
    parseFloat := fun s => if s = "5" then some 5 else none
    reprFloat := fun _ => "5.0" }

def rulesC8 : Rules :=
  { income := [{ transaction_type := "*a*", debit_account := "Expenses:Misc",
                 credit_account := "Assets:Bank" }]
    expense := []
    amount_prefix := "$" }

/-- **C8** is refuted as stated on the description `"A--B"`: the code's
`re.sub(r"[^a-zA-Z0-9 ]+", " ", ...)` collapses the run `--` to a single
space, emitting `"... A B..."`, while replacing EVERY character outside the
class by a space (as the claim reads) would give `"A  B"` with two. -/
theorem c8_counterexample :
    transform_transactions extC8 [⟨"2024-01-01", some "A--B", "5"⟩] rulesC8 false =
      .ok (.outputOnly ["2024/01/01 A B\n\t" ++ ljust "Expenses:Misc" 50 ++
        "$5.0\n\tAssets:Bank"]) ∧
    pyTitle ⟨"A--B".data.map (fun c => if isAllowedChar c then c else ' ')⟩ = "A  B" ∧
    ("A B" : String) ≠ "A  B" := by
  exact ⟨by rfl, by decide, by decide⟩

theorem c8_witness :
    [("2024/01/01 A B\n\t" ++ ljust "Expenses:Misc" 50 ++ "$5.0\n\tAssets:Bank" : String)] =
      List.filterMap (specLedgerBlock extC8 rulesC8) [⟨"2024-01-01", some "A--B", "5"⟩] :=
  c8_ledger_block_format extC8 [⟨"2024-01-01", some "A--B", "5"⟩] rulesC8 _ (by rfl)

/-! ## Claim C4: the coverage invariant of the analytics report -/

theorem contains_iff_mem (l : List String) (a : String) :
    l.contains a = true ↔ a ∈ l := by
  simp [List.contains_iff_exists_mem_beq]

theorem length_filter_split (U : List String) : ∀ (C : List String),
    C.length = (C.filter (fun r => U.contains r)).length +
      (C.filter (fun r => !(U.contains r))).length := by
  intro C
  induction C with
  | nil => simp
  | cons a t ih =>
    cases ha : U.contains a with
    | false =>
      rw [List.filter_cons, List.filter_cons, if_neg (by rw [ha]; decide),
        if_pos (by rw [ha]; decide)]
      simp only [List.length_cons]
      omega
    | true =>
      rw [List.filter_cons, List.filter_cons, if_pos (by rw [ha]),
        if_neg (by rw [ha]; decide)]
      simp only [List.length_cons]
      omega

theorem length_filter_contains {C U : List String} (hC : C.Nodup) (hU : U.Nodup)
    (hsub : ∀ x ∈ U, x ∈ C) :
    U.length + (C.filter (fun r => !(U.contains r))).length = C.length := by
  have h1 := length_filter_split U C
  have h2 : (C.filter (fun r => U.contains r)).length = U.length := by
    have hn1 : (C.filter (fun r => U.contains r)).Nodup := hC.filter _
    have hfs : (C.filter (fun r => U.contains r)).toFinset = U.toFinset := by
      ext x
      simp only [List.mem_toFinset, List.mem_filter, contains_iff_mem]
      exact ⟨fun h => h.2, fun h => ⟨hsub x h, h⟩⟩
    calc (C.filter (fun r => U.contains r)).length
        = (C.filter (fun r => U.contains r)).toFinset.card :=
          (List.toFinset_card_of_nodup hn1).symm
      _ = U.toFinset.card := by rw [hfs]
      _ = U.length := List.toFinset_card_of_nodup hU
  omega

theorem dictIncr_keys : ∀ (u : List (String × Nat)) (k k' : String),
    k' ∈ (dictIncr u k).map Prod.fst → k' ∈ u.map Prod.fst ∨ k' = k := by
  intro u
  induction u with
  | nil =>
    intro k k' h
    simp [dictIncr] at h
    exact Or.inr h
  | cons kv rest ih =>
    intro k k' h
    rw [dictIncr] at h
    by_cases hk : kv.1 = k
    · rw [if_pos hk] at h
      simp only [List.map_cons, List.mem_cons] at h
      rcases h with h | h
      · exact Or.inl (by simp [h])
      · exact Or.inl (by simp [h])
    · rw [if_neg hk] at h
      simp only [List.map_cons, List.mem_cons] at h
      rcases h with h | h
      · exact Or.inl (by simp [h])
      · rcases ih k k' h with h2 | h2
        · exact Or.inl (List.mem_cons_of_mem _ h2)
        · exact Or.inr h2

theorem stepTx_usage_keys {E : Ext} {rules : Rules} {cap : Bool} {st : LoopState}
    {row : Row} {st1 : LoopState} (h : stepTx E rules cap st row = .ok st1) :
    ∀ k ∈ st1.rule_usage.map Prod.fst,
      k ∈ st.rule_usage.map Prod.fst ∨ k = "no_match" ∨ k ∈ ruleKeys rules := by
  unfold stepTx at h
  cases hd : E.parseDate row.date with
  | none => rw [hd] at h; cases h
  | some dt =>
    rw [hd] at h
    cases hf : E.parseFloat (stripCommas row.amount) with
    | none => rw [hf] at h; cases h
    | some amount =>
      rw [hf] at h
      simp only at h
      cases hm : match_rule (some (row.description.getD ""))
          (if 0 < amount then rules.income else rules.expense) with
      | none =>
        rw [hm] at h
        obtain rfl := (Except.ok.inj h).symm
        cases cap with
        | false => intro k hk; exact Or.inl hk
        | true =>
          intro k hk
          rcases dictIncr_keys st.rule_usage _ k hk with h2 | h2
          · exact Or.inl h2
          · exact Or.inr (Or.inl h2)
      | some r =>
        have hr : r ∈ (if 0 < amount then rules.income else rules.expense) :=
          List.mem_of_find?_eq_some hm
        have hkey : ((if 0 < amount then "income" else "expense") ++ "." ++
            r.transaction_type) ∈ ruleKeys rules := by
          by_cases hamt : 0 < amount
          · rw [if_pos hamt] at hr ⊢
            exact List.mem_append_left _ (List.mem_map_of_mem _ hr)
          · rw [if_neg hamt] at hr ⊢
            exact List.mem_append_right _ (List.mem_map_of_mem _ hr)
        rw [hm] at h
        obtain rfl := (Except.ok.inj h).symm
        cases cap with
        | false => intro k hk; exact Or.inl hk
        | true =>
          intro k hk
          rcases dictIncr_keys st.rule_usage _ k hk with h2 | h2
          · exact Or.inl h2
          · exact h2 ▸ Or.inr (Or.inr hkey)

theorem runRows_usage_keys {E : Ext} {rules : Rules} {cap : Bool} :
    ∀ (rows : List Row) (st st2 : LoopState),
      runRows E rules cap st rows = .ok st2 →
      (∀ k ∈ st.rule_usage.map Prod.fst, k = "no_match" ∨ k ∈ ruleKeys rules) →
      ∀ k ∈ st2.rule_usage.map Prod.fst, k = "no_match" ∨ k ∈ ruleKeys rules := by
  intro rows
  induction rows with
  | nil =>
    intro st st2 h hinv
    obtain rfl : st = st2 := Except.ok.inj h
    exact hinv
  | cons row rest ih =>
    intro st st2 h hinv
    unfold runRows at h
    cases hs : stepTx E rules cap st row with
    | error e => rw [hs] at h; cases h
    | ok stm =>
      rw [hs] at h
      refine ih stm st2 h ?_
      intro k hk
      rcases stepTx_usage_keys hs k hk with h2 | h2
      · exact hinv k h2
      · exact h2

/-- Projection used to state C4: the `coverage_analysis` of a successful
metadata-capturing run. -/
def coverageOf : Except String TransformResult → Option Coverage
  | .ok (.withMeta _ md) => some md.rule_analytics.coverage_analysis
  | _ => none

/-- **C4** (amended): for every run over a catalog whose rule keys
`direction.pattern` are pairwise distinct, the analytics report satisfies
`rules_used + rules_unused = total_rules_defined`; the transaction half
`transactions_with_rules + transactions_without_rules = total_transactions`
holds for every run with no distinctness assumption.  (With duplicate rule
keys in the catalog the first equality fails — see the counterexample.) -/
theorem c4_coverage_invariant (E : Ext) (rows : List Row) (rules : Rules)
    (cov : Coverage)
    (h : coverageOf (transform_transactions E rows rules true) = some cov) :
    ((ruleKeys rules).Nodup →
      cov.rules_used + cov.rules_unused = cov.total_rules_defined) ∧
    (cov.transactions_with_rules : ℤ) + cov.transactions_without_rules =
      (cov.total_transactions : ℤ) := by
  unfold transform_transactions at h
  cases hr : runRows E rules true initState rows with
  | error e => rw [hr] at h; cases h
  | ok st =>
    rw [hr] at h
    obtain rfl : (generate_rule_analytics rules st.rule_usage st.txmeta).coverage_analysis
        = cov := Option.some.inj h
    have hin : ∀ k ∈ st.rule_usage.map Prod.fst, k = "no_match" ∨ k ∈ ruleKeys rules :=
      runRows_usage_keys rows initState st hr (by simp [initState])
    constructor
    · intro hnd
      have e_used : (generate_rule_analytics rules st.rule_usage st.txmeta).coverage_analysis.rules_used
          = (((st.rule_usage.map Prod.fst).filter (fun k => k != "no_match")).dedup).length := rfl
      have e_unused : (generate_rule_analytics rules st.rule_usage st.txmeta).coverage_analysis.rules_unused
          = ((ruleKeys rules).filter (fun r =>
              !((((st.rule_usage.map Prod.fst).filter (fun k => k != "no_match")).dedup).contains r))).length := rfl
      have e_total : (generate_rule_analytics rules st.rule_usage st.txmeta).coverage_analysis.total_rules_defined
          = (ruleKeys rules).length := rfl
      rw [e_used, e_unused, e_total]
      apply length_filter_contains hnd (List.nodup_dedup _)
      intro x hx
      rw [List.mem_dedup, List.mem_filter] at hx
      obtain ⟨hx1, hx2⟩ := hx
      rcases hin x hx1 with h2 | h2
      · rw [h2] at hx2
        simp at hx2
      · exact h2
    · have e_with : (generate_rule_analytics rules st.rule_usage st.txmeta).coverage_analysis.transactions_with_rules
          = (analyticsPass st.txmeta).1 := rfl
      have e_without : (generate_rule_analytics rules st.rule_usage st.txmeta).coverage_analysis.transactions_without_rules
          = (st.txmeta.length : ℤ) - ((analyticsPass st.txmeta).1 : ℤ) := rfl
      have e_totaltx : (generate_rule_analytics rules st.rule_usage st.txmeta).coverage_analysis.total_transactions
          = st.txmeta.length := rfl
      rw [e_with, e_without, e_totaltx]
      ring

/-- A catalog whose two income rules share the identity `income.*a*`. -/
def rulesC4dup : Rules :=
  { income := [{ transaction_type := "*a*", debit_account := "D", credit_account := "C" },
               { transaction_type := "*a*", debit_account := "D2", credit_account := "C2" }]
    expense := []
    amount_prefix := "$" }

/-- **C4** is refuted as stated: with two configured rules sharing one key,
one matching transaction yields `rules_used = 1`, `rules_unused = 0` but
`total_rules_defined = 2` — `used_rules` is a set of keys while `all_rules`
keeps duplicates. -/
theorem c4_counterexample :
    coverageOf (transform_transactions extC8 [⟨"2024-01-01", some "a", "5"⟩] rulesC4dup true) =
      some ⟨2, 1, 0, 50, 1, 1, 0⟩ ∧ (1 : Nat) + 0 ≠ 2 :=
  ⟨by with_unfolding_all rfl, by decide⟩

/-- The same catalog without the duplicate. -/
def rulesC4w : Rules :=
  { income := [{ transaction_type := "*a*", debit_account := "D", credit_account := "C" }]
    expense := []
    amount_prefix := "$" }

theorem c4_witness :
    coverageOf (transform_transactions extC8 [⟨"2024-01-01", some "a", "5"⟩] rulesC4w true) =
      some ⟨1, 1, 0, 100, 1, 1, 0⟩ ∧
    ((1 : Nat) + 0 = 1 ∧ ((1 : ℤ) + 0 = (1 : ℤ))) :=
  ⟨by with_unfolding_all rfl,
    (c4_coverage_invariant extC8 [⟨"2024-01-01", some "a", "5"⟩] rulesC4w
      ⟨1, 1, 0, 100, 1, 1, 0⟩ (by with_unfolding_all rfl)).1 (by decide),
    (c4_coverage_invariant extC8 [⟨"2024-01-01", some "a", "5"⟩] rulesC4w
      ⟨1, 1, 0, 100, 1, 1, 0⟩ (by with_unfolding_all rfl)).2⟩

/-! ## Claim C7: the rule normalizer -/

/-- A rule record of the simplified-syntax configuration.  `match`, `to` and
`from` are the shorthand fields; `transaction_type`, `debit_account` and
`credit_account` the legacy ones; a key that is absent from the Python dict
is `none`. -/
structure RawRule where
  «match» : Option String := none
  «from» : Option String := none
  «to» : Option String := none
  transaction_type : Option String := none
  debit_account : Option String := none
  credit_account : Option String := none
  description : Option String := none
deriving Repr, DecidableEq, Inhabited

/-- Python dict lookup `d.get(k)` on an association list. -/
def dictGet : List (String × String) → String → Option String
  | [], _ => none
  | kv :: rest, k => if kv.1 = k then some kv.2 else dictGet rest k

/-- `BaseProcessor.resolve_account` (base_processor.py:426-436):
`shortcuts.get(account, account)`. -/
def resolve_account (account : String) (shortcuts : List (String × String)) : String :=
  (dictGet shortcuts account).getD account

/-- The dict merge `{**bank_shortcuts, **user_shortcuts}` of
`load_rules` (base_processor.py:73): bank keys first (their values
overridden by the user where present), then the remaining user keys. -/
def mergeShortcuts (bank user : List (String × String)) : List (String × String) :=
  bank.map (fun kv => (kv.1, (dictGet user kv.1).getD kv.2)) ++
    user.filter (fun kv => (dictGet bank kv.1).isNone)

/-- The per-rule body of the `transform_rules` loop
(base_processor.py:459-472): rewrite `match`, then `to`, then `from`. -/
def transformRawRule (shortcuts : List (String × String)) (r : RawRule) : RawRule :=
  let r1 := match r.«match» with
    | some m => { r with transaction_type := some (convert_pattern m), «match» := none }
    | none => r
  let r2 := match r1.«to» with
    | some t => { r1 with debit_account := some (resolve_account t shortcuts), «to» := none }
    | none => r1
  match r2.«from» with
  | some f => { r2 with credit_account := some (resolve_account f shortcuts), «from» := none }
  | none => r2

/-- The simplified rule configuration: the two rule lists under `rules`. -/
structure RawRules where
  income : List RawRule
  expense : List RawRule
deriving Repr, DecidableEq

/-- `BaseProcessor.transform_rules` (base_processor.py:438-474), value level:
the result it returns (C10 additionally shows the deep copy leaves the
input's objects untouched). -/
def transform_rules (rules : RawRules) (shortcuts : List (String × String)) : RawRules :=
  { income := rules.income.map (transformRawRule shortcuts)
    expense := rules.expense.map (transformRawRule shortcuts) }

theorem dictGet_append (l1 l2 : List (String × String)) (a : String) :
    dictGet (l1 ++ l2) a = (dictGet l1 a).orElse (fun _ => dictGet l2 a) := by
  induction l1 with
  | nil => rfl
  | cons kv rest ih =>
    by_cases hk : kv.1 = a
    · simp [dictGet, hk]
    · simp [dictGet, hk, ih]

theorem dictGet_mapped_bank (user : List (String × String)) (a : String) :
    ∀ bank : List (String × String),
      dictGet (bank.map (fun kv => (kv.1, (dictGet user kv.1).getD kv.2))) a =
        (dictGet bank a).map (fun v => (dictGet user a).getD v) := by
  intro bank
  induction bank with
  | nil => rfl
  | cons kv rest ih =>
    by_cases hk : kv.1 = a
    · simp [dictGet, hk]
    · simp [dictGet, hk, ih]

theorem dictGet_filtered_user (bank : List (String × String)) (a : String)
    (hb : dictGet bank a = none) :
    ∀ user : List (String × String),
      dictGet (user.filter (fun kv => (dictGet bank kv.1).isNone)) a = dictGet user a := by
  intro user
  induction user with
  | nil => rfl
  | cons kv rest ih =>
    by_cases hk : kv.1 = a
    · rw [List.filter_cons, if_pos (by rw [hk, hb]; rfl)]
      simp [dictGet, hk]
    · rw [List.filter_cons]
      by_cases hkeep : (dictGet bank kv.1).isNone = true
      · rw [if_pos hkeep]
        simp [dictGet, hk, ih]
      · rw [if_neg hkeep]
        simp [dictGet, hk, ih]

/-- Lookup in the merged table: the user binding wins, then the bank one. -/
theorem dictGet_merge (bank user : List (String × String)) (a : String) :
    dictGet (mergeShortcuts bank user) a =
      (dictGet user a).orElse (fun _ => dictGet bank a) := by
  unfold mergeShortcuts
  rw [dictGet_append, dictGet_mapped_bank]
  cases hb : dictGet bank a with
  | some v =>
    cases dictGet user a <;> rfl
  | none =>
    rw [dictGet_filtered_user bank a hb user]
    cases dictGet user a <;> rfl

/-- **C7**: `to`/`from` are resolved through the merged alias table with
user aliases overriding bank-preset aliases of the same key, unresolved
values pass through unchanged, and Scenario D holds: the rule
`{match: "contains salary", to: "checking", from: "Income:Salary"}` with
alias `checking ↦ Assets:Bank:Checking` normalizes to
`{transaction_type: "*salary*", debit_account: "Assets:Bank:Checking",
credit_account: "Income:Salary"}`. -/
theorem c7_alias_resolution (bank user : List (String × String)) (a : String) :
    (∀ v, dictGet user a = some v →
      resolve_account a (mergeShortcuts bank user) = v) ∧
    (dictGet user a = none → ∀ v, dictGet bank a = some v →
      resolve_account a (mergeShortcuts bank user) = v) ∧
    (dictGet user a = none → dictGet bank a = none →
      resolve_account a (mergeShortcuts bank user) = a) ∧
    (transform_rules
        ⟨[{ «match» := some "contains salary", «from» := some "Income:Salary",
            «to» := some "checking" }], []⟩
        [("checking", "Assets:Bank:Checking")] =
      ⟨[{ transaction_type := some "*salary*",
          debit_account := some "Assets:Bank:Checking",
          credit_account := some "Income:Salary" }], []⟩) := by
  refine ⟨?_, ?_, ?_, by decide⟩
  · intro v hv
    unfold resolve_account
    rw [dictGet_merge, hv]
    rfl
  · intro hu v hv
    unfold resolve_account
    rw [dictGet_merge, hu, hv]
    rfl
  · intro hu hb
    unfold resolve_account
    rw [dictGet_merge, hu, hb]
    rfl

theorem c7_witness :
    resolve_account "checking"
      (mergeShortcuts [("checking", "Assets:Bank:Preset")]
        [("checking", "Assets:Bank:Checking")]) = "Assets:Bank:Checking" :=
  (c7_alias_resolution [("checking", "Assets:Bank:Preset")]
    [("checking", "Assets:Bank:Checking")] "checking").1 "Assets:Bank:Checking" rfl

/-! ## Claim C10: normalization does not mutate the caller's configuration

`transform_rules` receives a mutable dict tree and rewrites rule dicts in
place — but only after `copy.deepcopy`.  To state the frame property the
object store is made explicit: a heap of rule objects addressed by index,
with the configuration holding addresses.  `deepcopy` appends fresh copies;
the rewrite loop mutates only the fresh addresses. -/

abbrev Heap := List RawRule

/-- Read the rule object at an address. -/
def heapGet (h : Heap) (a : Nat) : RawRule := h.getD a default

/-- The in-place rewrite of one rule dict at address `a`. -/
def mutateAt (shortcuts : List (String × String)) (hh : Heap) (a : Nat) : Heap :=
  hh.set a (transformRawRule shortcuts (heapGet hh a))

/-- `BaseProcessor.transform_rules` (base_processor.py:438-474) with the
object store explicit: deep-copy the rule objects to fresh addresses, then
run the rewrite loop over the copied income and expense rule lists.
Returns the heap and the address lists of the returned configuration. -/
def transform_rules_heap (h : Heap) (income expense : List Nat)
    (shortcuts : List (String × String)) : Heap × List Nat × List Nat :=
  let n := h.length
  let h1 := h ++ income.map (heapGet h) ++ expense.map (heapGet h)
  let income2 := (List.range income.length).map (fun i => n + i)
  let expense2 := (List.range expense.length).map (fun i => n + income.length + i)
  let h2 := (income2 ++ expense2).foldl (mutateAt shortcuts) h1
  (h2, income2, expense2)

theorem heapGet_eq (l : Heap) (a : Nat) : heapGet l a = (l[a]?).getD default := by
  rw [heapGet, List.getD_eq_getElem?_getD]

theorem heapGet_set_ne (l : Heap) (a i : Nat) (v : RawRule) (hne : a ≠ i) :
    heapGet (l.set a v) i = heapGet l i := by
  rw [heapGet_eq, heapGet_eq, List.getElem?_set_ne hne]

theorem heapGet_set_eq (l : Heap) (a : Nat) (v : RawRule) (ha : a < l.length) :
    heapGet (l.set a v) a = v := by
  rw [heapGet_eq, List.getElem?_set_self ha]
  rfl

theorem mutateAt_length (shortcuts : List (String × String)) (hh : Heap) (a : Nat) :
    (mutateAt shortcuts hh a).length = hh.length := by
  simp [mutateAt]

theorem mutate_foldl_untouched (shortcuts : List (String × String)) :
    ∀ (addrs : List Nat) (hh : Heap) (i : Nat), i ∉ addrs →
      heapGet (addrs.foldl (mutateAt shortcuts) hh) i = heapGet hh i := by
  intro addrs
  induction addrs with
  | nil => intro hh i _; rfl
  | cons a rest ih =>
    intro hh i hi
    rw [List.foldl_cons, ih _ i (fun hmem => hi (List.mem_cons_of_mem a hmem))]
    exact heapGet_set_ne hh a i _ (fun h => hi (h ▸ List.mem_cons_self a rest))

theorem mutate_foldl_apply (shortcuts : List (String × String)) :
    ∀ (addrs : List Nat), addrs.Nodup →
      ∀ (hh : Heap), (∀ b ∈ addrs, b < hh.length) →
      ∀ a ∈ addrs, heapGet (addrs.foldl (mutateAt shortcuts) hh) a =
        transformRawRule shortcuts (heapGet hh a) := by
  intro addrs
  induction addrs with
  | nil => intro _ hh _ a ha; cases ha
  | cons a0 rest ih =>
    intro hnd hh hlen a ha
    have hnd0 : a0 ∉ rest := (List.nodup_cons.mp hnd).1
    rw [List.foldl_cons]
    rcases List.mem_cons.mp ha with rfl | hmem
    · rw [mutate_foldl_untouched shortcuts rest _ a hnd0]
      exact heapGet_set_eq hh a _ (hlen a (List.mem_cons_self a rest))
    · have hne : a0 ≠ a := fun h => hnd0 (h ▸ hmem)
      rw [ih (List.nodup_cons.mp hnd).2 _
        (fun b hb => by
          rw [mutateAt_length]
          exact hlen b (List.mem_cons_of_mem a0 hb))
        a hmem]
      have he : heapGet (mutateAt shortcuts hh a0) a = heapGet hh a :=
        heapGet_set_ne hh a0 a _ hne
      rw [he]

theorem heapGet_append_left {h t : Heap} {a : Nat} (ha : a < h.length) :
    heapGet (h ++ t) a = heapGet h a := by
  rw [heapGet_eq, heapGet_eq, List.getElem?_append_left ha]

theorem heapGet_append_right {h t : Heap} {i : Nat} :
    heapGet (h ++ t) (h.length + i) = heapGet t i := by
  rw [heapGet_eq, heapGet_eq, List.getElem?_append_right (by omega)]
  have he : h.length + i - h.length = i := by omega
  rw [he]

/-- **C10**: `transform_rules` deep-copies before rewriting: every object of
the original heap is unchanged by the call (the caller's configuration is
never mutated), the returned configuration references only fresh objects,
and each fresh object holds exactly the value-level transformation of the
corresponding original rule. -/
theorem c10_transform_rules_no_mutation (h : Heap) (income expense : List Nat)
    (shortcuts : List (String × String)) :
    (∀ a, a < h.length →
      heapGet (transform_rules_heap h income expense shortcuts).1 a = heapGet h a) ∧
    (∀ a ∈ (transform_rules_heap h income expense shortcuts).2.1, h.length ≤ a) ∧
    (∀ a ∈ (transform_rules_heap h income expense shortcuts).2.2, h.length ≤ a) ∧
    (∀ i, ∀ hi : i < income.length,
      heapGet (transform_rules_heap h income expense shortcuts).1 (h.length + i) =
        transformRawRule shortcuts (heapGet h (income.get ⟨i, hi⟩))) ∧
    (∀ i, ∀ hi : i < expense.length,
      heapGet (transform_rules_heap h income expense shortcuts).1
          (h.length + income.length + i) =
        transformRawRule shortcuts (heapGet h (expense.get ⟨i, hi⟩))) := by
  have hmemI : ∀ a, a ∈ (List.range income.length).map (fun i => h.length + i) ↔
      ∃ i, i < income.length ∧ h.length + i = a := by
    intro a
    simp [List.mem_map, List.mem_range]
  have hmemE : ∀ a, a ∈ (List.range expense.length).map
      (fun i => h.length + income.length + i) ↔
      ∃ i, i < expense.length ∧ h.length + income.length + i = a := by
    intro a
    simp [List.mem_map, List.mem_range]
  have hnodI : ((List.range income.length).map (fun i => h.length + i)).Nodup :=
    List.Nodup.map (fun a b hab => by omega) (List.nodup_range _)
  have hnodE : ((List.range expense.length).map
      (fun i => h.length + income.length + i)).Nodup :=
    List.Nodup.map (fun a b hab => by omega) (List.nodup_range _)
  have hdisj : ∀ a ∈ (List.range income.length).map (fun i => h.length + i),
      a ∉ (List.range expense.length).map (fun i => h.length + income.length + i) := by
    intro a haI haE
    rw [hmemI] at haI
    rw [hmemE] at haE
    obtain ⟨i, hi, rfl⟩ := haI
    obtain ⟨j, hj, hje⟩ := haE
    omega
  have hnod : (((List.range income.length).map (fun i => h.length + i)) ++
      ((List.range expense.length).map (fun i => h.length + income.length + i))).Nodup :=
    List.Nodup.append hnodI hnodE hdisj
  have hlen1 : (h ++ income.map (heapGet h) ++ expense.map (heapGet h)).length
      = h.length + income.length + expense.length := by
    rw [List.length_append, List.length_append, List.length_map, List.length_map]
  have hbound : ∀ b ∈ (((List.range income.length).map (fun i => h.length + i)) ++
      ((List.range expense.length).map (fun i => h.length + income.length + i))),
      b < (h ++ income.map (heapGet h) ++ expense.map (heapGet h)).length := by
    intro b hb
    rw [hlen1]
    rcases List.mem_append.mp hb with hb | hb
    · obtain ⟨i, hi, rfl⟩ := (hmemI b).mp hb
      omega
    · obtain ⟨i, hi, rfl⟩ := (hmemE b).mp hb
      omega
  refine ⟨?_, ?_, ?_, ?_, ?_⟩
  · intro a ha
    simp only [transform_rules_heap]
    rw [mutate_foldl_untouched]
    · rw [List.append_assoc]
      exact heapGet_append_left ha
    · intro hmem
      rcases List.mem_append.mp hmem with hb | hb
      · obtain ⟨i, hi, hie⟩ := (hmemI a).mp hb
        omega
      · obtain ⟨i, hi, hie⟩ := (hmemE a).mp hb
        omega
  · intro a ha
    simp only [transform_rules_heap] at ha
    obtain ⟨i, hi, rfl⟩ := (hmemI a).mp ha
    omega
  · intro a ha
    simp only [transform_rules_heap] at ha
    obtain ⟨i, hi, rfl⟩ := (hmemE a).mp ha
    omega
  · intro i hi
    simp only [transform_rules_heap]
    rw [mutate_foldl_apply shortcuts _ hnod _ hbound (h.length + i)
      (List.mem_append_left _ ((hmemI _).mpr ⟨i, hi, rfl⟩))]
    congr 1
    rw [List.append_assoc, heapGet_append_right,
      heapGet_append_left (by rw [List.length_map]; exact hi),
      heapGet_eq, List.getElem?_map, List.getElem?_eq_getElem hi]
    simp [List.get_eq_getElem]
  · intro i hi
    simp only [transform_rules_heap]
    rw [mutate_foldl_apply shortcuts _ hnod _ hbound (h.length + income.length + i)
      (List.mem_append_right _ ((hmemE _).mpr ⟨i, hi, rfl⟩))]
    congr 1
    have he : h.length + income.length + i = (h ++ income.map (heapGet h)).length + i := by
      rw [List.length_append, List.length_map]
    rw [he, heapGet_append_right, heapGet_eq, List.getElem?_map,
      List.getElem?_eq_getElem hi]
    simp [List.get_eq_getElem]

theorem c10_witness :
    heapGet (transform_rules_heap
      [⟨some "contains salary", some "Income:Salary", some "checking",
        none, none, none, none⟩] [0] []
      [("checking", "Assets:Bank:Checking")]).1 0 =
    ⟨some "contains salary", some "Income:Salary", some "checking",
      none, none, none, none⟩ :=
  (c10_transform_rules_no_mutation
    [⟨some "contains salary", some "Income:Salary", some "checking",
      none, none, none, none⟩] [0] [] [("checking", "Assets:Bank:Checking")]).1
    0 (by decide)

end PyLedger






